import Mathlib

/-!
Verification of the namemaker library (`src/namemaker/__init__.py`).

The Python classes and functions are shallowly embedded:
pure functions become Lean functions, mutation becomes explicit state
passing, Python exceptions become `Except PyError`, Python floats become
exact rationals, Python `dict` (insertion ordered) becomes an ordered
association list, and Python `set` becomes `Finset String`.
The identity (`is`) comparison of `name_len_func` objects is modelled by a
numeric tag `metricId` carried next to the function itself.
-/

namespace Namemaker

/-- Python exceptions raised by the embedded code. -/
inductive PyError where
  | typeError (msg : String)
  | valueError (msg : String)
  | zeroDivisionError
  deriving DecidableEq

/-- The Markov transition dictionary `_markov_dict`: a Python `dict` from a
context key to the list of continuation letters, where `none` embeds the
module constant `_END = None`.  Python dicts preserve insertion order, so the
embedding is an ordered association list. -/
abbrev MDict := List (String × List (Option Char))

/-- `d[k].append(v)` creating `d[k] = [v]` on `KeyError`, as in
`_make_markov_dict` and the merge loop of `__iadd__`. -/
def dictExtend : MDict → String → List (Option Char) → MDict
  | [], k, vs => [(k, vs)]
  | (k', v') :: rest, k, vs =>
      if k' = k then (k', v' ++ vs) :: rest else (k', v') :: dictExtend rest k vs

/-- Append a single continuation letter to the entry of key `k`. -/
def dictAppend (d : MDict) (k : String) (c : Option Char) : MDict :=
  dictExtend d k [c]

/-- The context-key cap of `_make_markov_dict` and `_make_name_raw`:
after appending a letter, if the key is longer than the order, drop its
first character. -/
def capKey (order : Nat) (k : String) : String :=
  if k.length > order then k.drop 1 else k

/-- The inner loop of `_make_markov_dict` for one name: walk the letters,
recording each letter as continuation of the key before it, then record the
end marker for the final key. -/
def markovAddChars (order : Nat) : MDict → String → List Char → MDict
  | d, prev, [] => dictAppend d prev none
  | d, prev, c :: cs =>
      markovAddChars order (dictAppend d prev (some c)) (capKey order (prev.push c)) cs

/-- `NameSet._make_markov_dict`: rebuild the transition table from the corpus. -/
def makeMarkovDict (order : Nat) (names : List String) : MDict :=
  names.foldl (fun d n => markovAddChars order d "" n.toList) []

/-- The state of a `NameSet` object.  `names` is `_names`, `namesSet` is
`_names_set`, `metric`/`metricId` are `_name_len_func` and its object
identity, `avgNameLen` is `_avg_name_len`, `markovDict` is `_markov_dict`
and `history` is `_history`. -/
structure NameSet where
  names : List String
  namesSet : Finset String
  order : Nat
  metricId : Nat
  metric : String → Rat
  avgNameLen : Rat
  markovDict : MDict
  history : Finset String

/-- `NameSet._update_avg_name_len`: mean of the metric over the corpus,
`0` for an empty corpus. -/
def NameSet.updateAvgNameLen (A : NameSet) : NameSet :=
  if A.names.isEmpty then { A with avgNameLen := 0 }
  else { A with avgNameLen := (A.names.map A.metric).sum / (A.names.length : Rat) }

/-- `NameSet.__init__` after the order has passed its two checks (order is a
valid natural number here).  Sets the corpus, its membership set, the mean
and the transition table; the history starts empty. -/
def mkNameSetNat (names : List String) (order : Nat) (metricId : Nat)
    (metric : String → Rat) : NameSet :=
  NameSet.updateAvgNameLen
    { names := names
      namesSet := names.toFinset
      order := order
      metricId := metricId
      metric := metric
      avgNameLen := 0
      markovDict := makeMarkovDict order names
      history := ∅ }

/-- `NameSet.__init__` with the two order checks of lines 62-65: a
non-integer order and a negative order each raise a `ValueError` at the
call.  A possibly fractional Python number is embedded as a rational. -/
def mkNameSet (names : List String) (order : Rat) (metricId : Nat)
    (metric : String → Rat) : Except PyError NameSet :=
  if order.den ≠ 1 then
    .error (.valueError "Cannot create NameSet with non-integer order.")
  else if order < 0 then
    .error (.valueError "Cannot create NameSet with negative order.")
  else
    .ok (mkNameSetNat names order.num.toNat metricId metric)

/-- `NameSet.change_order` once the new order is known valid:
store it and rebuild the transition table. -/
def NameSet.changeOrderNat (A : NameSet) (order : Nat) : NameSet :=
  { A with order := order, markovDict := makeMarkovDict order A.names }

/-- `NameSet.change_order` with its two validity checks (lines 370-373). -/
def NameSet.changeOrder (A : NameSet) (order : Rat) : Except PyError NameSet :=
  if order.den ≠ 1 then
    .error (.valueError "Cannot change to a non-integer order.")
  else if order < 0 then
    .error (.valueError "Cannot change to a negative order.")
  else
    .ok (A.changeOrderNat order.num.toNat)

/-- `NameSet.change_name_len_func`: install the new metric and recompute
the cached mean with it. -/
def NameSet.changeNameLenFunc (A : NameSet) (metricId : Nat)
    (metric : String → Rat) : NameSet :=
  NameSet.updateAvgNameLen { A with metricId := metricId, metric := metric }

/-- `NameSet.copy` produces a deep copy sharing no mutable state; in a pure
embedding a deep copy is the value itself. -/
def NameSet.copy (A : NameSet) : NameSet := A

/-- `NameSet.clear_history` (on an unshared history; the shared case is
modelled separately by `HistSys`). -/
def NameSet.clearHistory (A : NameSet) : NameSet := { A with history := ∅ }

/-- The markov-dict part of `NameSet.remove` for one key: remove the first
occurrence of each letter from the entry of `k`, then delete the key if its
list became empty.  (The source would raise a `KeyError`/`ValueError` if the
key or a letter were absent; under the transition-table invariant this never
happens for a corpus member, and the embedding treats it as a no-op.) -/
def dictEraseAt : MDict → String → List (Option Char) → MDict
  | [], _, _ => []
  | (k', v') :: rest, k, ls =>
      if k' = k then
        let v'' := ls.foldl (fun v l => v.erase l) v'
        if v''.isEmpty then rest else (k', v'') :: rest
      else (k', v') :: dictEraseAt rest k ls

/-- Lines 346-351 of `NameSet.remove`: build the one-name markov dict of
the removed name and subtract its letters from this set's dict. -/
def dictRemoveName (d : MDict) (order : Nat) (name : String) : MDict :=
  (makeMarkovDict order [name]).foldl (fun d kv => dictEraseAt d kv.1 kv.2) d

/-- `NameSet.remove`: raise `ValueError` if the name is absent; otherwise
remove its first occurrence from the corpus, drop it from the membership set
when no occurrence is left, subtract its transition-table contribution, and
update the cached mean incrementally.  The incremental update (lines
353-356) subtracts the built-in `len(name)` - the character count - not
`name_len_func(name)`, and divides by the new corpus size, which raises
`ZeroDivisionError` when the last name was removed. -/
def NameSet.remove (A : NameSet) (name : String) : Except PyError NameSet :=
  if name ∈ A.names then
    let names' := A.names.erase name
    let namesSet' := if name ∈ names' then A.namesSet else A.namesSet.erase name
    let md' := dictRemoveName A.markovDict A.order name
    if names'.length = 0 then .error .zeroDivisionError
    else
      .ok { A with
        names := names'
        namesSet := namesSet'
        markovDict := md'
        avgNameLen :=
          (A.avgNameLen * ((names'.length : Rat) + 1) - (name.length : Rat))
            / (names'.length : Rat) }
  else .error (.valueError "Input name is not in the NameSet.")

/-- The dynamically typed right-hand operand of the algebra operators and of
`add_to_history`: another `NameSet`, a non-string collection of names, or a
bare `str`. -/
inductive NamesArg where
  | ns (A : NameSet)
  | coll (l : List String)
  | str (s : String)

/-- Iterating over the operand: a `NameSet` iterates its corpus, a
collection iterates itself.  (A bare string is rejected before any
iteration happens, so its value here is irrelevant.) -/
def NamesArg.namesOf : NamesArg → List String
  | .ns A => A.names
  | .coll l => l
  | .str s => [s]

/-- The merge loop of `__iadd__` (lines 167-171): for each key of the other
dict, extend this dict's entry or install the other's list. -/
def dictMerge (d e : MDict) : MDict :=
  e.foldl (fun d kv => dictExtend d kv.1 kv.2) d

/-- `NameSet.__iadd__` on a `NameSet` operand, after the `str` type check.
A mismatched order rebuilds the right operand's table at the left order and
a mismatched metric identity installs the left metric (both also emit
non-fatal warnings, which the embedding drops).  The new cached mean is the
size-weighted combination of the two cached means (line 163), whose
denominator is zero - a Python `ZeroDivisionError` - when both corpora are
empty.  The corpus, membership set and transition table are then merged;
the history is untouched. -/
def NameSet.iaddNS (A B : NameSet) : Except PyError NameSet :=
  let B := if A.order ≠ B.order then B.changeOrderNat A.order else B
  let B := if A.metricId ≠ B.metricId then B.changeNameLenFunc A.metricId A.metric else B
  if A.names.length + B.names.length = 0 then .error .zeroDivisionError
  else
    .ok { A with
      avgNameLen :=
        (A.avgNameLen * (A.names.length : Rat) + B.avgNameLen * (B.names.length : Rat))
          / ((A.names.length : Rat) + (B.names.length : Rat))
      names := A.names ++ B.names
      namesSet := A.namesSet ∪ B.namesSet
      markovDict := dictMerge A.markovDict B.markovDict }

/-- `NameSet.__iadd__` (lines 134-173): a bare `str` raises `TypeError`; a
non-`NameSet` collection is first wrapped in a `NameSet` with this set's
order and metric. -/
def NameSet.iaddArg (A : NameSet) : NamesArg → Except PyError NameSet
  | .str _ => .error (.typeError "Cannot add str to NameSet. Use NameSet.append instead.")
  | .coll l => A.iaddNS (mkNameSetNat l A.order A.metricId A.metric)
  | .ns B => A.iaddNS B

/-- `NameSet.append`: `self += [name]`. -/
def NameSet.append (A : NameSet) (name : String) : Except PyError NameSet :=
  A.iaddArg (.coll [name])

/-- `NameSet.add`: append only if the name is not already present
(membership through `_names_set`). -/
def NameSet.addName (A : NameSet) (name : String) : Except PyError NameSet :=
  if name ∈ A.namesSet then .ok A else A.append name

/-- The loop body of `NameSet.remove_duplicates`: iterate over a snapshot of
the corpus, removing any name already seen. -/
def removeDupGo : NameSet → List String → Finset String → Except PyError NameSet
  | A, [], _ => .ok A
  | A, n :: rest, seen =>
      if n ∈ seen then
        match A.remove n with
        | .ok A' => removeDupGo A' rest seen
        | .error e => .error e
      else removeDupGo A rest (insert n seen)

/-- `NameSet.remove_duplicates`. -/
def NameSet.removeDuplicates (A : NameSet) : Except PyError NameSet :=
  removeDupGo A A.names ∅

/-- The `for name in other_names` loop of `__isub__`: each name of the
operand that is present (membership through `_names_set`) removes one
occurrence via `NameSet.remove`. -/
def isubFold : NameSet → List String → Except PyError NameSet
  | A, [] => .ok A
  | A, n :: rest =>
      match (if n ∈ A.namesSet then A.remove n else .ok A) with
      | .ok A' => isubFold A' rest
      | .error e => .error e

/-- `NameSet.__isub__` (lines 187-222): a bare `str` raises `TypeError`;
otherwise each name of the operand (duplicates processed individually) that
is present removes one occurrence via `NameSet.remove`. -/
def NameSet.isubArg (A : NameSet) (x : NamesArg) : Except PyError NameSet :=
  match x with
  | .str _ => .error (.typeError "Cannot subtract str from NameSet. Use NameSet.remove instead.")
  | other => isubFold A other.namesOf

/-- `NameSet.__ior__` (lines 238-267): a bare `str` raises `TypeError`;
otherwise the operand names not already present (membership through
`_names_set`) are added with `+=` and all duplicates are then removed. -/
def NameSet.iorArg (A : NameSet) (x : NamesArg) : Except PyError NameSet :=
  match x with
  | .str _ => .error (.typeError "Cannot take union of str and NameSet. Use NameSet.add instead.")
  | other =>
      let newNames := other.namesOf.filter (fun n => n ∉ A.namesSet)
      match A.iaddArg (.coll newNames) with
      | .ok A' => A'.removeDuplicates
      | .error e => .error e

/-- The intersection loop of `NameSet.__iand__` (lines 312-317): walk this
corpus, keeping each name found in the (shrinking) other list and removing
the matched occurrence from it. -/
def interAux : List String → List String → List String
  | [], _ => []
  | n :: rest, other =>
      if n ∈ other then n :: interAux rest (other.erase n)
      else interAux rest other

/-- `NameSet.__iand__` (lines 282-322): a bare `str` raises `TypeError`;
otherwise the corpus is replaced by the min-multiplicity intersection and
the membership set, transition table and mean are rebuilt from scratch. -/
def NameSet.iandArg (A : NameSet) (x : NamesArg) : Except PyError NameSet :=
  match x with
  | .str _ => .error (.typeError "Cannot take intersection of str with NameSet.")
  | other =>
      let shared := interAux A.names other.namesOf
      .ok (NameSet.updateAvgNameLen
        { A with
          names := shared
          namesSet := shared.toFinset
          markovDict := makeMarkovDict A.order shared })

/-- `NameSet.__add__`: operate on a deep copy and clear its history. -/
def NameSet.addArg (A : NameSet) (x : NamesArg) : Except PyError NameSet :=
  match A.copy.iaddArg x with
  | .ok C => .ok C.clearHistory
  | .error e => .error e

/-- `NameSet.__sub__`: operate on a deep copy and clear its history. -/
def NameSet.subArg (A : NameSet) (x : NamesArg) : Except PyError NameSet :=
  match A.copy.isubArg x with
  | .ok C => .ok C.clearHistory
  | .error e => .error e

/-- `NameSet.__or__`: operate on a deep copy and clear its history. -/
def NameSet.orArg (A : NameSet) (x : NamesArg) : Except PyError NameSet :=
  match A.copy.iorArg x with
  | .ok C => .ok C.clearHistory
  | .error e => .error e

/-- `NameSet.__and__`: operate on a deep copy and clear its history. -/
def NameSet.andArg (A : NameSet) (x : NamesArg) : Except PyError NameSet :=
  match A.copy.iandArg x with
  | .ok C => .ok C.clearHistory
  | .error e => .error e

/-- `NameSet.add_to_history` (lines 402-409): a bare string is wrapped as a
one-element set, and the (possibly shared) history is unioned in place with
the given names.  No input is rejected. -/
def NameSet.addToHistory (A : NameSet) : NamesArg → NameSet
  | .str s => { A with history := A.history ∪ {s} }
  | .ns B => { A with history := A.history ∪ B.names.toFinset }
  | .coll l => { A with history := A.history ∪ l.toFinset }

/-- Python `str.casefold`, modelled as per-character lowercasing (the names
handled by the library are ordinary words, for which the two agree). -/
def casefold (s : String) : String := ⟨s.data.map Char.toLower⟩

/-- Does the character list `w` start the character list `hay`? -/
def strStarts : List Char → List Char → Bool
  | [], _ => true
  | _ :: _, [] => false
  | c :: cs, h :: hs => c = h && strStarts cs hs

/-- Python substring containment `w in hay` over character lists. -/
def strContains (w : List Char) : List Char → Bool
  | [] => strStarts w []
  | c :: rest => strStarts w (c :: rest) || strContains w rest

/-- `is_clean` (lines 801-818): `True` iff no banned word is a
case-insensitive substring of the name. -/
def isClean (name : String) (bannedWords : List String) : Bool :=
  bannedWords.all fun w => !(strContains (casefold w).toList (casefold name).toList)

/-- The keyword arguments of `NameSet.make_name`, together with the module
state it reads: the global `banned_words` set.  `prefCandidate` is a plain
number because the caller may pass a value other than `MIN = 0`, `MAX = 1`,
`AVG = 2`.  A `validation_func = None` argument is embedded as the constant
true function, exactly what lines 513-514 replace it with. -/
structure MakeNameCfg where
  excludeRealNames : Bool
  excludeHistory : Bool
  addHistory : Bool
  nCandidates : Nat
  prefCandidate : Nat
  maxAttempts : Nat
  validationFunc : String → Bool
  bannedWords : List String

/-- The candidate validity test of `make_name` (lines 521-525). -/
def NameSet.nameValid (A : NameSet) (cfg : MakeNameCfg) (name : String) : Bool :=
  !name.isEmpty
    && cfg.validationFunc name
    && !(cfg.excludeRealNames && decide (name ∈ A.namesSet))
    && !(cfg.excludeHistory && decide (name ∈ A.history))
    && isClean name cfg.bannedWords

/-- The inner `while n_attempts < max_attempts` loop of `make_name` for one
candidate slot.  The raw generator `_make_name_raw` is embedded as an oracle
`gen` indexed by how many raw names have been drawn so far (`cur`); the
first argument is the remaining attempt budget.  Returns the first valid
raw name, if any, and the new draw count. -/
def tryMakeOne (gen : Nat → String) (valid : String → Bool) :
    Nat → Nat → Option String × Nat
  | 0, cur => (none, cur)
  | fuel + 1, cur =>
      if valid (gen cur) then (some (gen cur), cur + 1)
      else tryMakeOne gen valid fuel (cur + 1)

/-- The outer `for i in range(n_candidates)` loop of `make_name`: collect at
most one valid candidate per slot, in slot order, threading the draw
count. -/
def collectCandidates (gen : Nat → String) (valid : String → Bool)
    (maxAttempts : Nat) : Nat → Nat → List String × Nat
  | 0, cur => ([], cur)
  | n + 1, cur =>
      match tryMakeOne gen valid maxAttempts cur with
      | (some name, cur') =>
          let r := collectCandidates gen valid maxAttempts n cur'
          (name :: r.1, r.2)
      | (none, cur') => collectCandidates gen valid maxAttempts n cur'

/-- Insert `x` (an element arriving from earlier in the input) in front of
the first element it may precede. -/
def insertBefore (le : String → String → Bool) (x : String) :
    List String → List String
  | [] => [x]
  | y :: ys => if le x y then x :: y :: ys else y :: insertBefore le x ys

/-- Python `list.sort`, a stable sort: `le x y` states that `x`, which came
before `y` in the input, may stay before `y`. -/
def stableSort (le : String → String → Bool) : List String → List String
  | [] => []
  | x :: xs => insertBefore le x (stableSort le xs)

/-- The sort-key dispatch of `make_name` (lines 534-540), reached only when
at least one candidate exists.  For `AVG` the key divides by the cached
mean, so a zero mean raises `ZeroDivisionError` as soon as the sort
evaluates the key; an unrecognized preference raises `ValueError`. -/
def NameSet.sortKeyOf (A : NameSet) (pref : Nat) : Except PyError (String → Rat) :=
  if pref = 2 then
    if A.avgNameLen = 0 then .error .zeroDivisionError
    else .ok fun name => |A.metric name - A.avgNameLen| / A.avgNameLen
  else if pref = 0 ∨ pref = 1 then .ok A.metric
  else .error (.valueError "make_name got an unexpected value for pref_candidate")

/-- `NameSet.make_name` (lines 480-546): collect candidates, return the
empty-string sentinel if none, otherwise pick the sort key (which may
raise), stably sort - descending for `MAX` - take the first candidate, and
add it to the history when `add_to_history` is set.  Returns the name and
the resulting `NameSet`. -/
def NameSet.makeName (A : NameSet) (cfg : MakeNameCfg) (gen : Nat → String) :
    Except PyError (String × NameSet) :=
  let cands := (collectCandidates gen (A.nameValid cfg) cfg.maxAttempts cfg.nCandidates 0).1
  if cands.isEmpty then .ok ("", A)
  else
    match A.sortKeyOf cfg.prefCandidate with
    | .error e => .error e
    | .ok key =>
        let le : String → String → Bool :=
          if cfg.prefCandidate = 1 then fun a b => key b ≤ key a
          else fun a b => key a ≤ key b
        let name := (stableSort le cands).headD ""
        .ok (name, if cfg.addHistory then A.addToHistory (.str name) else A)

/-- The shared-history mechanism.  Python histories are mutable `set`
objects possibly aliased by several `NameSet`s; the embedding makes the heap
explicit: `store` maps a cell id to a set of names, `cellOf` maps each
name-set (indexed by `ι`) to the cell its `_history` reference points at,
and `fresh` is the next unused cell id (allocation of a new `set` object). -/
structure HistSys (ι : Type) where
  cellOf : ι → Nat
  store : Nat → Finset String
  fresh : Nat

/-- `get_history` through member `i`: the contents of its cell. -/
def HistSys.history (s : HistSys ι) (i : ι) : Finset String :=
  s.store (s.cellOf i)

/-- `add_to_history` of one name through member `i`: `self._history |= {name}`
mutates the shared cell in place. -/
def HistSys.histAdd [DecidableEq ι] (s : HistSys ι) (i : ι) (name : String) :
    HistSys ι :=
  { s with store := fun c => if c = s.cellOf i then s.store c ∪ {name} else s.store c }

/-- `clear_history` through member `i`: `self._history.clear()` empties the
shared cell in place. -/
def HistSys.histClear [DecidableEq ι] (s : HistSys ι) (i : ι) : HistSys ι :=
  { s with store := fun c => if c = s.cellOf i then ∅ else s.store c }

/-- `link_histories` (lines 417-428): allocate one new set holding the union
of the members' current histories and point every named member at it. -/
def HistSys.link [DecidableEq ι] (s : HistSys ι) (i : ι) (others : List ι) :
    HistSys ι :=
  { cellOf := fun x => if x = i ∨ x ∈ others then s.fresh else s.cellOf x
    store := fun c =>
      if c = s.fresh then (others.map s.history).foldl (· ∪ ·) (s.history i)
      else s.store c
    fresh := s.fresh + 1 }

/-- `unlink_history` (lines 430-433): point this member at a fresh copy of
its current history, leaving every other member untouched. -/
def HistSys.unlink [DecidableEq ι] (s : HistSys ι) (i : ι) : HistSys ι :=
  { cellOf := fun x => if x = i then s.fresh else s.cellOf x
    store := fun c => if c = s.fresh then s.history i else s.store c
    fresh := s.fresh + 1 }

/-! ### Specification-side definitions

The next four definitions follow the words of the candidate-selection
specification, not the source loops; the refinement theorem for the
selector relates them to the embedded code above. -/

/-- From the spec: a slot attempts up to `maxAttempts` generations and keeps
the first valid one.  Returns the oracle index of that first valid raw name
among the window of `maxAttempts` draws starting at `start`, if any. -/
def firstValidInWindow (gen : Nat → String) (valid : String → Bool)
    (start maxAttempts : Nat) : Option Nat :=
  ((List.range maxAttempts).map (start + ·)).find? fun j => valid (gen j)

/-- From the spec: the candidates kept by the `n` slots, each slot
contributing the first valid raw name among its at most `maxAttempts`
draws, or nothing. -/
def specCandidates (gen : Nat → String) (valid : String → Bool)
    (maxAttempts : Nat) : Nat → Nat → List String
  | 0, _ => []
  | n + 1, start =>
      match firstValidInWindow gen valid start maxAttempts with
      | some j => gen j :: specCandidates gen valid maxAttempts n (j + 1)
      | none => specCandidates gen valid maxAttempts n (start + maxAttempts)

/-- From the spec: the candidate with the smallest key, ties broken in
favour of the earlier candidate in input order. -/
def firstMinBy (k : String → Rat) : List String → Option String
  | [] => none
  | x :: xs =>
      match firstMinBy k xs with
      | none => some x
      | some y => if k x ≤ k y then some x else some y

/-- From the spec: the candidate with the largest key, ties broken in
favour of the earlier candidate in input order. -/
def firstMaxBy (k : String → Rat) : List String → Option String
  | [] => none
  | x :: xs =>
      match firstMaxBy k xs with
      | none => some x
      | some y => if k y ≤ k x then some x else some y

/-- From the spec: the winning candidate under the preference policy
(`MIN` smallest metric, `MAX` largest metric, `AVG` smallest relative
deviation from the corpus mean), ties broken by input order. -/
def prefBest (A : NameSet) (pref : Nat) (cands : List String) : Option String :=
  if pref = 1 then firstMaxBy A.metric cands
  else if pref = 2 then
    firstMinBy (fun n => |A.metric n - A.avgNameLen| / A.avgNameLen) cands
  else firstMinBy A.metric cands

/-! ### Concrete instances used by witnesses and counterexamples

`metricId` conventions: `1` is the builtin `len`, `0` a constant-zero
metric, `7` a doubled character count. -/

/-- The builtin `len` as a length metric. -/
def strLen (s : String) : Rat := (s.length : Rat)

/-- C1 failing input: a two-name corpus whose metric is twice the character
count, so that the metric value of a name differs from `len(name)`. -/
def mA : NameSet := mkNameSetNat ["ab", "cd"] 1 7 (fun s => 2 * (s.length : Rat))

/-- The state of `mA` with its cached mean evaluated. -/
def mArec : NameSet :=
  { names := ["ab", "cd"], namesSet := ["ab", "cd"].toFinset, order := 1, metricId := 7,
    metric := fun s => 2 * (s.length : Rat), avgNameLen := 4,
    markovDict := makeMarkovDict 1 ["ab", "cd"], history := ∅ }

/-- A one-name corpus with a constant-zero metric: its cached mean is `0`
even though names can be generated from it. -/
def zA : NameSet := mkNameSetNat ["ab"] 3 0 (fun _ => 0)

/-- The state of `zA` with its cached mean evaluated. -/
def zArec : NameSet :=
  { names := ["ab"], namesSet := ["ab"].toFinset, order := 3, metricId := 0,
    metric := fun _ => 0, avgNameLen := 0, markovDict := makeMarkovDict 3 ["ab"],
    history := ∅ }

/-- `make_name` arguments with `pref_candidate = AVG` and one candidate
slot. -/
def cfgAvg : MakeNameCfg :=
  { excludeRealNames := false, excludeHistory := true, addHistory := false,
    nCandidates := 1, prefCandidate := 2, maxAttempts := 1,
    validationFunc := fun _ => true, bannedWords := [] }

/-- `make_name` arguments with an unrecognized `pref_candidate = 5` and a
validator rejecting everything, so that no valid candidate is ever found. -/
def cfgBadPref : MakeNameCfg :=
  { excludeRealNames := false, excludeHistory := true, addHistory := true,
    nCandidates := 2, prefCandidate := 5, maxAttempts := 3,
    validationFunc := fun _ => false, bannedWords := [] }

/-- `make_name` arguments with `pref_candidate = MIN`, two candidate slots
and two attempts per slot. -/
def cfgMin : MakeNameCfg :=
  { excludeRealNames := false, excludeHistory := false, addHistory := true,
    nCandidates := 2, prefCandidate := 0, maxAttempts := 2,
    validationFunc := fun _ => true, bannedWords := [] }

/-- A raw-generation oracle drawing "bb", then "a", then "bb" forever. -/
def genW : Nat → String
  | 0 => "bb"
  | 1 => "a"
  | _ => "bb"

/-- A `NameSet` with an empty corpus. -/
def e0 : NameSet := mkNameSetNat [] 3 1 strLen

/-- A one-name corpus with the builtin `len` metric; subtracting its own
name from it empties the corpus. -/
def sA : NameSet := mkNameSetNat ["ab"] 3 1 strLen

/-- A corpus with a duplicated name, for exercising the multiset laws. -/
def wA : NameSet := mkNameSetNat ["aa", "aa", "bb"] 2 1 strLen

/-- A second corpus sharing one name with `wA`. -/
def wB : NameSet := mkNameSetNat ["aa", "cc"] 2 1 strLen

/-- A one-name corpus, the nonempty right operand for the addition
witness. -/
def wG : NameSet := mkNameSetNat ["ddd"] 2 1 strLen

/-- The result of `wA += wB`. -/
def wC : NameSet :=
  match wA.iaddNS wB with
  | .ok C => C
  | .error _ => wA

/-- The result of `wA |= wB`. -/
def wD : NameSet :=
  match wA.iorArg (.ns wB) with
  | .ok C => C
  | .error _ => wA

/-- The result of `wA &= wB`. -/
def wE : NameSet :=
  match wA.iandArg (.ns wB) with
  | .ok C => C
  | .error _ => wA

/-- The result of `wA -= wB`. -/
def wF : NameSet :=
  match wA.isubArg (.ns wB) with
  | .ok C => C
  | .error _ => wA

/-- A two-member history system in which each name-set starts with its own
empty history cell. -/
def hs0 : HistSys (Fin 2) :=
  { cellOf := fun x => x.val, store := fun _ => ∅, fresh := 2 }

/-- The rational one half, built without normalizing arithmetic so proofs
can evaluate its fields. -/
def halfQ : Rat := ⟨1, 2, by decide, by decide⟩

/-- `make_name` arguments with an unrecognized `pref_candidate = 5` and a
validator accepting everything, so that a valid candidate is found. -/
def cfgBadPref2 : MakeNameCfg :=
  { excludeRealNames := false, excludeHistory := true, addHistory := true,
    nCandidates := 1, prefCandidate := 5, maxAttempts := 1,
    validationFunc := fun _ => true, bannedWords := [] }

/-- A second corpus with a constant-zero metric. -/
def zB : NameSet := mkNameSetNat ["cde"] 2 0 (fun _ => 0)

/-! ## Helper lemmas -/

theorem updateAvgNameLen_names (A : NameSet) : A.updateAvgNameLen.names = A.names := by
  unfold NameSet.updateAvgNameLen; split <;> rfl

theorem updateAvgNameLen_history (A : NameSet) : A.updateAvgNameLen.history = A.history := by
  unfold NameSet.updateAvgNameLen; split <;> rfl

theorem updateAvgNameLen_namesSet (A : NameSet) : A.updateAvgNameLen.namesSet = A.namesSet := by
  unfold NameSet.updateAvgNameLen; split <;> rfl

theorem mkNameSetNat_names (l : List String) (k i : Nat) (f : String → Rat) :
    (mkNameSetNat l k i f).names = l := by
  unfold mkNameSetNat; rw [updateAvgNameLen_names]

/-- Inverting a successful `remove`: the name was present, the corpus lost
its first occurrence of the name, the history is untouched. -/
theorem remove_ok {A : NameSet} {n : String} {A' : NameSet}
    (h : A.remove n = .ok A') :
    n ∈ A.names ∧ A'.names = A.names.erase n ∧ A'.history = A.history := by
  unfold NameSet.remove at h
  simp only [] at h
  split at h
  · split at h
    · exact absurd h (by simp)
    · rw [Except.ok.injEq] at h
      subst h
      simp_all
  · exact absurd h (by simp)

/-- A successful `remove` preserves the membership-cache invariant. -/
theorem remove_ok_namesSet {A : NameSet} {n : String} {A' : NameSet}
    (h : A.remove n = .ok A') (hset : A.namesSet = A.names.toFinset) :
    A'.namesSet = A'.names.toFinset := by
  unfold NameSet.remove at h
  simp only [] at h
  split at h
  · split at h
    · exact absurd h (by simp)
    · rw [Except.ok.injEq] at h
      subst h
      simp only
      by_cases hn : n ∈ A.names.erase n
      · rw [if_pos hn, hset]
        ext x
        by_cases hx : x = n
        · subst hx
          simp [hn, List.mem_of_mem_erase hn]
        · simp [List.mem_erase_of_ne hx]
      · rw [if_neg hn, hset]
        ext x
        by_cases hx : x = n
        · subst hx
          simp [hn]
        · simp [List.mem_erase_of_ne hx, Finset.mem_erase, hx]
  · exact absurd h (by simp)

/-- Inverting a successful `+=` on two `NameSet`s: corpora concatenate,
the history and membership cache behave as in the source. -/
theorem iaddNS_ok {A B C : NameSet} (h : A.iaddNS B = .ok C) :
    C.names = A.names ++ B.names ∧ C.history = A.history ∧
      C.namesSet = A.namesSet ∪ B.namesSet := by
  unfold NameSet.iaddNS at h
  simp only [] at h
  set B1 := if A.order ≠ B.order then B.changeOrderNat A.order else B with hB1
  set B2 := if A.metricId ≠ B1.metricId then B1.changeNameLenFunc A.metricId A.metric else B1 with hB2
  have h1 : B1.names = B.names := by
    rw [hB1]; split <;> simp [NameSet.changeOrderNat]
  have h12 : B1.namesSet = B.namesSet := by
    rw [hB1]; split <;> simp [NameSet.changeOrderNat]
  have h2 : B2.names = B1.names := by
    rw [hB2]; split <;> simp [NameSet.changeNameLenFunc, updateAvgNameLen_names]
  have h22 : B2.namesSet = B1.namesSet := by
    rw [hB2]; split <;> simp [NameSet.changeNameLenFunc, updateAvgNameLen_namesSet]
  split at h
  · exact absurd h (by simp)
  · rw [Except.ok.injEq] at h
    subst h
    simp [h1, h2, h12, h22]

/-- The intersection loop keeps, per value, the minimum multiplicity of the
two sides. -/
theorem interAux_count (v : String) : ∀ (l other : List String),
    (interAux l other).count v = min (l.count v) (other.count v) := by
  intro l
  induction l with
  | nil => intro other; simp [interAux]
  | cons n rest ih =>
      intro other
      unfold interAux
      by_cases hv : v = n
      · subst hv
        by_cases hn : v ∈ other
        · rw [if_pos hn]
          have hpos : 0 < other.count v := List.count_pos_iff.mpr hn
          simp only [List.count_cons_self, ih, List.count_erase_self]
          omega
        · rw [if_neg hn]
          have hz : other.count v = 0 := List.count_eq_zero.mpr hn
          simp only [ih, List.count_cons_self, hz]
          omega
      · by_cases hn : n ∈ other
        · rw [if_pos hn]
          simp only [List.count_cons_of_ne hv, ih, List.count_erase_of_ne hv]
        · rw [if_neg hn]
          simp only [ih, List.count_cons_of_ne hv]

/-- The subtraction loop removes, per value, as many occurrences as the
right operand supplies (truncated at zero), preserving the history and the
membership-cache invariant. -/
theorem isubFold_count (v : String) : ∀ (l : List String) (A C : NameSet),
    A.namesSet = A.names.toFinset →
    isubFold A l = .ok C →
    C.names.count v = A.names.count v - l.count v ∧ C.history = A.history ∧
      C.namesSet = C.names.toFinset := by
  intro l
  induction l with
  | nil =>
      intro A C hset h
      rw [isubFold, Except.ok.injEq] at h
      subst h
      simp [hset]
  | cons n rest ih =>
      intro A C hset h
      rw [isubFold] at h
      by_cases hn : n ∈ A.namesSet
      · rw [if_pos hn] at h
        cases hstep : A.remove n with
        | error e => rw [hstep] at h; exact absurd h (by simp)
        | ok A1 =>
            rw [hstep] at h
            simp only [] at h
            obtain ⟨hmem, hnames, hhist⟩ := remove_ok hstep
            have hset1 : A1.namesSet = A1.names.toFinset := remove_ok_namesSet hstep hset
            obtain ⟨hc, hh, hs⟩ := ih A1 C hset1 h
            refine ⟨?_, hh.trans hhist, hs⟩
            rw [hc, hnames]
            by_cases hv : v = n
            · subst hv
              have hpos : 0 < A.names.count v := List.count_pos_iff.mpr hmem
              simp only [List.count_erase_self, List.count_cons_self]
              omega
            · simp only [List.count_erase_of_ne hv, List.count_cons_of_ne hv]
      · rw [if_neg hn] at h
        simp only [] at h
        obtain ⟨hc, hh, hs⟩ := ih A C hset h
        have hvmem : n ∉ A.names := by
          rw [hset] at hn
          simpa using hn
        refine ⟨?_, hh, hs⟩
        rw [hc]
        by_cases hv : v = n
        · subst hv
          have hz : A.names.count v = 0 := List.count_eq_zero.mpr hvmem
          simp [hz]
        · simp [List.count_cons_of_ne hv]

/-- The dedup loop of `remove_duplicates`: every value of `l` whose first
occurrence is protected by `seen` loses all its `l`-occurrences, every
other value of `l` keeps exactly its first occurrence. -/
theorem removeDupGo_count (v : String) : ∀ (l : List String) (A C : NameSet)
    (seen : Finset String),
    removeDupGo A l seen = .ok C →
    C.names.count v =
      (if v ∈ seen then A.names.count v - l.count v
       else if v ∈ l then A.names.count v - (l.count v - 1)
       else A.names.count v) ∧ C.history = A.history := by
  intro l
  induction l with
  | nil =>
      intro A C seen h
      rw [removeDupGo, Except.ok.injEq] at h
      subst h
      simp
  | cons n rest ih =>
      intro A C seen h
      rw [removeDupGo] at h
      by_cases hn : n ∈ seen
      · rw [if_pos hn] at h
        cases hstep : A.remove n with
        | error e => rw [hstep] at h; exact absurd h (by simp)
        | ok A1 =>
            rw [hstep] at h
            simp only [] at h
            obtain ⟨hmem, hnames, hhist⟩ := remove_ok hstep
            obtain ⟨hc, hh⟩ := ih A1 C seen h
            refine ⟨?_, hh.trans hhist⟩
            rw [hc, hnames]
            by_cases hv : v = n
            · subst hv
              have hpos : 0 < A.names.count v := List.count_pos_iff.mpr hmem
              simp only [if_pos hn, List.count_erase_self, List.count_cons_self]
              omega
            · have hml : (v ∈ n :: rest) ↔ v ∈ rest := by simp [hv]
              simp only [List.count_erase_of_ne hv, List.count_cons_of_ne hv]
              by_cases hs : v ∈ seen
              · simp [hs]
              · by_cases hr : v ∈ rest
                · simp [hs, hr, hml.mpr hr]
                · have hnr : v ∉ n :: rest := fun hx => hr (hml.mp hx)
                  simp [hs, hr, hnr]
      · rw [if_neg hn] at h
        obtain ⟨hc, hh⟩ := ih A C (insert n seen) h
        refine ⟨?_, hh⟩
        rw [hc]
        by_cases hv : v = n
        · subst hv
          have hmi : (v ∈ insert v seen) ↔ True := by simp
          have hml : (v ∈ v :: rest) ↔ True := by simp
          simp only [hmi, hml, if_true, if_neg hn, List.count_cons_self]
          omega
        · have hmi : (v ∈ insert n seen) ↔ v ∈ seen := by simp [Finset.mem_insert, hv]
          have hml : (v ∈ n :: rest) ↔ v ∈ rest := by simp [List.mem_cons, hv]
          simp only [hmi, hml, List.count_cons_of_ne hv]

/-- The subtraction loop never touches the history. -/
theorem isubFold_history : ∀ (l : List String) (A C : NameSet),
    isubFold A l = .ok C → C.history = A.history := by
  intro l
  induction l with
  | nil => intro A C h; rw [isubFold, Except.ok.injEq] at h; subst h; rfl
  | cons n rest ih =>
      intro A C h
      rw [isubFold] at h
      by_cases hn : n ∈ A.namesSet
      · rw [if_pos hn] at h
        cases hstep : A.remove n with
        | error e => rw [hstep] at h; exact absurd h (by simp)
        | ok A1 =>
            rw [hstep] at h
            simp only [] at h
            exact (ih A1 C h).trans (remove_ok hstep).2.2
      · rw [if_neg hn] at h
        simp only [] at h
        exact ih A C h

/-- A successful `+=` never touches the history, for any operand shape. -/
theorem iaddArg_ok_history {A : NameSet} {x : NamesArg} {C : NameSet}
    (h : A.iaddArg x = .ok C) : C.history = A.history := by
  cases x with
  | str s => exact absurd h (by simp [NameSet.iaddArg])
  | coll l => exact (iaddNS_ok h).2.1
  | ns B => exact (iaddNS_ok h).2.1

/-- A successful `|=` never touches the history, for any operand shape. -/
theorem iorArg_ok_history {A : NameSet} {x : NamesArg} {D : NameSet}
    (h : A.iorArg x = .ok D) : D.history = A.history := by
  cases x with
  | str s => exact absurd h (by simp [NameSet.iorArg])
  | coll l =>
      unfold NameSet.iorArg at h
      simp only [] at h
      cases hst : A.iaddArg (NamesArg.coll
          (List.filter (fun n => decide (n ∉ A.namesSet)) (NamesArg.coll l).namesOf)) with
      | error e => rw [hst] at h; exact absurd h (by simp)
      | ok A1 =>
          rw [hst] at h
          simp only [] at h
          exact ((removeDupGo_count "" A1.names A1 D ∅ h).2).trans (iaddArg_ok_history hst)
  | ns B =>
      unfold NameSet.iorArg at h
      simp only [] at h
      cases hst : A.iaddArg (NamesArg.coll
          (List.filter (fun n => decide (n ∉ A.namesSet)) (NamesArg.ns B).namesOf)) with
      | error e => rw [hst] at h; exact absurd h (by simp)
      | ok A1 =>
          rw [hst] at h
          simp only [] at h
          exact ((removeDupGo_count "" A1.names A1 D ∅ h).2).trans (iaddArg_ok_history hst)

/-- A successful `|=` with a `NameSet` operand keeps each value that occurs
on either side exactly once, and leaves the history alone. -/
theorem iorArg_ns_count {A B D : NameSet} (v : String)
    (hset : A.namesSet = A.names.toFinset)
    (hor : A.iorArg (.ns B) = .ok D) :
    D.names.count v = (if v ∈ A.names ∨ v ∈ B.names then 1 else 0) ∧
      D.history = A.history := by
  unfold NameSet.iorArg at hor
  simp only [] at hor
  cases hst : A.iaddArg (NamesArg.coll
      (List.filter (fun n => decide (n ∉ A.namesSet)) (NamesArg.ns B).namesOf)) with
  | error e => rw [hst] at hor; exact absurd hor (by simp)
  | ok A1 =>
      rw [hst] at hor
      simp only [] at hor
      have hst2 : A.iaddNS (mkNameSetNat
          (List.filter (fun n => decide (n ∉ A.namesSet)) (NamesArg.ns B).namesOf)
          A.order A.metricId A.metric) = .ok A1 := hst
      obtain ⟨hn1, hh1, _⟩ := iaddNS_ok hst2
      rw [mkNameSetNat_names] at hn1
      obtain ⟨hc, hh⟩ := removeDupGo_count v A1.names A1 D ∅ hor
      have hmem : ∀ x : String, x ∈ A1.names ↔ x ∈ A.names ∨ x ∈ B.names := by
        intro x
        rw [hn1]
        simp only [List.mem_append, List.mem_filter, decide_eq_true_eq, hset,
          List.mem_toFinset, NamesArg.namesOf]
        tauto
      refine ⟨?_, hh.trans hh1⟩
      rw [hc, if_neg (Finset.not_mem_empty v)]
      by_cases hv : v ∈ A1.names
      · have hpos : 0 < A1.names.count v := List.count_pos_iff.mpr hv
        rw [if_pos hv, if_pos ((hmem v).mp hv)]
        omega
      · have hz : A1.names.count v = 0 := List.count_eq_zero.mpr hv
        rw [if_neg hv, hz, if_neg (fun hx => hv ((hmem v).mpr hx))]

theorem strStarts_iff (w : List Char) : ∀ h : List Char,
    strStarts w h = true ↔ ∃ t, h = w ++ t := by
  induction w with
  | nil =>
      intro h
      simp [strStarts]
  | cons c cs ih =>
      intro h
      cases h with
      | nil => simp [strStarts]
      | cons x xs =>
          simp only [strStarts, Bool.and_eq_true, decide_eq_true_eq, ih xs,
            List.cons_append, List.cons.injEq]
          constructor
          · rintro ⟨rfl, t, rfl⟩
            exact ⟨t, rfl, rfl⟩
          · rintro ⟨t, h1, h2⟩
            exact ⟨h1.symm, t, h2⟩

/-- The containment loop agrees with the mathematical statement "`w` occurs
contiguously inside `h`". -/
theorem strContains_iff (w : List Char) : ∀ h : List Char,
    strContains w h = true ↔ ∃ pre post, h = pre ++ w ++ post := by
  intro h
  induction h with
  | nil =>
      simp only [strContains, strStarts_iff]
      constructor
      · rintro ⟨t, ht⟩
        exact ⟨[], t, by simpa using ht⟩
      · rintro ⟨pre, post, hp⟩
        rw [show pre ++ w ++ post = pre ++ (w ++ post) from by simp] at hp
        rcases List.append_eq_nil.mp hp.symm with ⟨rfl, h2⟩
        rcases List.append_eq_nil.mp h2 with ⟨rfl, rfl⟩
        exact ⟨[], rfl⟩
  | cons c rest ih =>
      simp only [strContains, Bool.or_eq_true, strStarts_iff, ih]
      constructor
      · rintro (⟨t, ht⟩ | ⟨pre, post, hp⟩)
        · exact ⟨[], t, by simpa using ht⟩
        · exact ⟨c :: pre, post, by simp [hp]⟩
      · rintro ⟨pre, post, hp⟩
        cases pre with
        | nil =>
            left
            exact ⟨post, by simpa using hp⟩
        | cons p ps =>
            right
            simp only [List.cons_append, List.cons.injEq] at hp
            exact ⟨ps, post, hp.2⟩

/-- `is_clean` agrees with "no banned word occurs case-insensitively inside
the name". -/
theorem isClean_iff (name : String) (bw : List String) :
    isClean name bw = true ↔
      ∀ w ∈ bw, ¬ ∃ pre post,
        (casefold name).data = pre ++ (casefold w).data ++ post := by
  simp only [isClean, List.all_eq_true, Bool.not_eq_true']
  refine forall_congr' fun w => forall_congr' fun _ => ?_
  rw [← strContains_iff]
  cases hc : strContains (casefold w).data (casefold name).data <;> simp [hc]

/-- The attempt loop for one slot returns the first valid draw in its
window of `fuel` draws, advancing the draw count past that draw, or fails
after consuming the whole window. -/
theorem tryMakeOne_eq (gen : Nat → String) (valid : String → Bool) :
    ∀ (fuel cur : Nat),
    tryMakeOne gen valid fuel cur =
      match firstValidInWindow gen valid cur fuel with
      | some j => (some (gen j), j + 1)
      | none => (none, cur + fuel) := by
  intro fuel
  induction fuel with
  | zero => intro cur; simp [tryMakeOne, firstValidInWindow]
  | succ f ih =>
      intro cur
      have hw : (List.range (f + 1)).map (cur + ·) =
          cur :: (List.range f).map ((cur + 1) + ·) := by
        rw [List.range_succ_eq_map, List.map_cons, List.map_map]
        refine congrArg₂ _ (by omega) (congrArg₂ _ ?_ rfl)
        funext j
        simp [Function.comp]
        omega
      rw [tryMakeOne]
      unfold firstValidInWindow
      rw [hw]
      cases hv : valid (gen cur) with
      | true =>
          rw [List.find?_cons_of_pos _ (by simpa using hv)]
          simp
      | false =>
          rw [List.find?_cons_of_neg _ (by simp [hv])]
          simp only [Bool.false_eq_true, if_false]
          rw [ih (cur + 1)]
          unfold firstValidInWindow
          cases hfw : ((List.range f).map ((cur + 1) + ·)).find? (fun j => valid (gen j)) with
          | some j => rfl
          | none =>
              simp only []
              refine congrArg _ ?_
              omega

/-- The slot loop computes exactly the candidates of the specification. -/
theorem collect_eq_spec (gen : Nat → String) (valid : String → Bool) (maxA : Nat) :
    ∀ (n cur : Nat),
    (collectCandidates gen valid maxA n cur).1 = specCandidates gen valid maxA n cur := by
  intro n
  induction n with
  | zero => intro cur; rfl
  | succ k ih =>
      intro cur
      rw [collectCandidates, specCandidates, tryMakeOne_eq]
      cases hfw : firstValidInWindow gen valid cur maxA with
      | some j => simp only [ih]
      | none => simp only [ih]

/-- The slot loop draws at most `n * maxAttempts` raw names in total. -/
theorem collect_cursor_le (gen : Nat → String) (valid : String → Bool) (maxA : Nat) :
    ∀ (n cur : Nat),
    (collectCandidates gen valid maxA n cur).2 ≤ cur + n * maxA := by
  intro n
  induction n with
  | zero => intro cur; simp [collectCandidates]
  | succ k ih =>
      intro cur
      rw [collectCandidates, tryMakeOne_eq]
      cases hfw : firstValidInWindow gen valid cur maxA with
      | some j =>
          have hj : j < cur + maxA := by
            have hmem := List.mem_of_find?_eq_some hfw
            simp only [List.mem_map, List.mem_range] at hmem
            omega
          simp only []
          calc (collectCandidates gen valid maxA k (j + 1)).2 ≤ (j + 1) + k * maxA := ih (j + 1)
            _ ≤ cur + (k + 1) * maxA := by
                have : (k + 1) * maxA = k * maxA + maxA := by ring
                omega
      | none =>
          simp only []
          calc (collectCandidates gen valid maxA k (cur + maxA)).2
              ≤ (cur + maxA) + k * maxA := ih (cur + maxA)
            _ ≤ cur + (k + 1) * maxA := by
                have : (k + 1) * maxA = k * maxA + maxA := by ring
                omega

theorem stableSort_length (le : String → String → Bool) :
    ∀ l : List String, (stableSort le l).length = l.length := by
  have hib : ∀ (x : String) (l : List String),
      (insertBefore le x l).length = l.length + 1 := by
    intro x l
    induction l with
    | nil => rfl
    | cons y ys ih =>
        rw [insertBefore]
        split
        · rfl
        · simp only [List.length_cons, ih]
  intro l
  induction l with
  | nil => rfl
  | cons x xs ih => rw [stableSort, hib, ih, List.length_cons]

theorem insertBefore_head (le : String → String → Bool) (x y : String) (ys : List String) :
    (insertBefore le x (y :: ys)).head? = some (if le x y then x else y) := by
  rw [insertBefore]
  split <;> simp_all

/-- The head of the stable ascending sort is the earliest key-minimal
element. -/
theorem stableSort_head_min (k : String → Rat) :
    ∀ l : List String,
    (stableSort (fun a b => decide (k a ≤ k b)) l).head? = firstMinBy k l := by
  intro l
  induction l with
  | nil => rfl
  | cons x xs ih =>
      rw [stableSort, firstMinBy]
      cases hs : stableSort (fun a b => decide (k a ≤ k b)) xs with
      | nil =>
          rw [hs] at ih
          rw [← ih]
          simp [insertBefore]
      | cons y ys =>
          rw [hs] at ih
          rw [insertBefore_head, ← ih]
          simp only [List.head?]
          by_cases h : k x ≤ k y <;> simp [h]

/-- The head of the stable descending sort is the earliest key-maximal
element. -/
theorem stableSort_head_max (k : String → Rat) :
    ∀ l : List String,
    (stableSort (fun a b => decide (k b ≤ k a)) l).head? = firstMaxBy k l := by
  intro l
  induction l with
  | nil => rfl
  | cons x xs ih =>
      rw [stableSort, firstMaxBy]
      cases hs : stableSort (fun a b => decide (k b ≤ k a)) xs with
      | nil =>
          rw [hs] at ih
          rw [← ih]
          simp [insertBefore]
      | cons y ys =>
          rw [hs] at ih
          rw [insertBefore_head, ← ih]
          simp only [List.head?]
          by_cases h : k y ≤ k x <;> simp [h]

/-! ## Claim theorems -/

/-- C2: a raw candidate passes the validity test of `make_name` iff it is
non-empty, the supplied validator accepts it, it is not a verbatim corpus
entry unless real names were allowed, it is not in the history unless
history repeats were allowed, and no banned word occurs case-insensitively
inside it; in particular the banned word "no" invalidates the candidate
"Nolan".  Stated under the data-model invariant that the membership cache
`_names_set` holds exactly the corpus values. -/
theorem c2_candidate_validity (A : NameSet) (cfg : MakeNameCfg) (name : String)
    (hset : A.namesSet = A.names.toFinset) :
    (A.nameValid cfg name = true ↔
      (name ≠ "" ∧ cfg.validationFunc name = true ∧
       (cfg.excludeRealNames = true → name ∉ A.names) ∧
       (cfg.excludeHistory = true → name ∉ A.history) ∧
       ∀ w ∈ cfg.bannedWords, ¬ ∃ pre post,
         (casefold name).data = pre ++ (casefold w).data ++ post)) ∧
    isClean "Nolan" ["no"] = false := by
  refine ⟨?_, by decide⟩
  simp only [NameSet.nameValid, Bool.and_eq_true, Bool.not_eq_true',
    Bool.and_eq_false_iff, decide_eq_true_eq, decide_eq_false_iff_not,
    isClean_iff, hset, List.mem_toFinset, Bool.not_eq_true]
  have hne : name.isEmpty = false ↔ name ≠ "" := by
    rw [Bool.eq_false_iff]
    exact not_congr (by simpa using String.isEmpty_iff name)
  simp only [hne]
  cases hre : cfg.excludeRealNames <;> cases hh : cfg.excludeHistory <;> simp <;> tauto

/-- Witness for C2: the invariant hypothesis is satisfiable (e.g. by a
freshly built `NameSet`) and the theorem then yields the concrete
"Nolan"/"no" fact. -/
theorem c2_candidate_validity_witness : isClean "Nolan" ["no"] = false :=
  (c2_candidate_validity zArec cfgAvg "x" (by rfl)).2

/-- C5 (amended): whenever the four algebra operators complete without
error, addition is multiset-additive, union keeps each distinct value of
either side exactly once (so its size is the size of the set union),
intersection keeps the minimum multiplicity per value, and subtraction
removes exactly `min` (right multiplicity, left multiplicity) occurrences
per value.  As stated for every pair the claim fails: subtraction that
empties the corpus raises a `ZeroDivisionError` (see the
counterexample). -/
theorem c5_algebra_multiplicities (A B C D E F : NameSet) (v : String)
    (hset : A.namesSet = A.names.toFinset)
    (hadd : A.iaddNS B = .ok C) (hor : A.iorArg (.ns B) = .ok D)
    (hand : A.iandArg (.ns B) = .ok E) (hsub : A.isubArg (.ns B) = .ok F) :
    C.names.length = A.names.length + B.names.length ∧
    D.names.Nodup ∧
    D.names.toFinset = A.names.toFinset ∪ B.names.toFinset ∧
    D.names.length = (A.names.toFinset ∪ B.names.toFinset).card ∧
    E.names.count v = min (A.names.count v) (B.names.count v) ∧
    F.names.count v = A.names.count v - min (A.names.count v) (B.names.count v) := by
  have hDcount : ∀ x : String,
      D.names.count x = (if x ∈ A.names ∨ x ∈ B.names then 1 else 0) :=
    fun x => (iorArg_ns_count x hset hor).1
  have hDnodup : D.names.Nodup := by
    rw [List.nodup_iff_count_le_one]
    intro a
    rw [hDcount a]
    split <;> omega
  have hDfin : D.names.toFinset = A.names.toFinset ∪ B.names.toFinset := by
    ext x
    simp only [List.mem_toFinset, Finset.mem_union]
    rw [← List.count_pos_iff, hDcount x]
    split <;> simp_all
  refine ⟨?_, hDnodup, hDfin, ?_, ?_, ?_⟩
  · rw [(iaddNS_ok hadd).1, List.length_append]
  · rw [← hDfin, List.toFinset_card_of_nodup hDnodup]
  · unfold NameSet.iandArg at hand
    simp only [] at hand
    rw [Except.ok.injEq] at hand
    subst hand
    rw [updateAvgNameLen_names]
    exact interAux_count v A.names B.names
  · have hsub2 : isubFold A B.names = .ok F := hsub
    have := (isubFold_count v B.names A F hset hsub2).1
    rw [this]
    omega

/-- Counterexample for C5 as frozen: subtracting a one-name `NameSet` from
itself should leave an empty corpus, but the incremental mean update of
`remove` divides by the new corpus size `0` and raises
`ZeroDivisionError`. -/
theorem c5_counterexample : sA.isubArg (.ns sA) = .error .zeroDivisionError := by rfl

/-- Witness for C5: the hypotheses are satisfiable on concrete corpora
(`wA = [aa, aa, bb]`, `wB = [aa, cc]`) where all four operators succeed. -/
theorem c5_witness :
    wC.names.length = wA.names.length + wB.names.length ∧
    wD.names.Nodup ∧
    wD.names.toFinset = wA.names.toFinset ∪ wB.names.toFinset ∧
    wD.names.length = (wA.names.toFinset ∪ wB.names.toFinset).card ∧
    wE.names.count "aa" = min (wA.names.count "aa") (wB.names.count "aa") ∧
    wF.names.count "aa" = wA.names.count "aa" - min (wA.names.count "aa") (wB.names.count "aa") :=
  c5_algebra_multiplicities wA wB wC wD wE wF "aa" (by rfl) (by rfl) (by rfl) (by rfl) (by rfl)

/-- C6: with every operand shape, each of the four non-mutating operators
returns (when it returns at all) a `NameSet` whose history is empty, and
each of the four in-place operators leaves the left operand's history
exactly as it was.  In the pure embedding an operator is a function of the
left operand, so the left operand itself is unchanged by construction; the
history conditions are the substantive part. -/
theorem c6_history_frame (A : NameSet) (x : NamesArg) :
    ((A.addArg x).toOption.map NameSet.history).getD ∅ = ∅ ∧
    ((A.subArg x).toOption.map NameSet.history).getD ∅ = ∅ ∧
    ((A.orArg x).toOption.map NameSet.history).getD ∅ = ∅ ∧
    ((A.andArg x).toOption.map NameSet.history).getD ∅ = ∅ ∧
    ((A.iaddArg x).toOption.map NameSet.history).getD A.history = A.history ∧
    ((A.isubArg x).toOption.map NameSet.history).getD A.history = A.history ∧
    ((A.iorArg x).toOption.map NameSet.history).getD A.history = A.history ∧
    ((A.iandArg x).toOption.map NameSet.history).getD A.history = A.history := by
  refine ⟨?_, ?_, ?_, ?_, ?_, ?_, ?_, ?_⟩
  · unfold NameSet.addArg
    cases hst : A.copy.iaddArg x <;> simp [Except.toOption, NameSet.clearHistory]
  · unfold NameSet.subArg
    cases hst : A.copy.isubArg x <;> simp [Except.toOption, NameSet.clearHistory]
  · unfold NameSet.orArg
    cases hst : A.copy.iorArg x <;> simp [Except.toOption, NameSet.clearHistory]
  · unfold NameSet.andArg
    cases hst : A.copy.iandArg x <;> simp [Except.toOption, NameSet.clearHistory]
  · cases hst : A.iaddArg x with
    | error e => simp [hst, Except.toOption]
    | ok C => simp [hst, Except.toOption, iaddArg_ok_history hst]
  · cases x with
    | str s => simp [NameSet.isubArg, Except.toOption]
    | coll l =>
        cases hst : A.isubArg (.coll l) with
        | error e => simp [hst, Except.toOption]
        | ok C =>
            have : C.history = A.history := isubFold_history l A C hst
            simp [hst, Except.toOption, this]
    | ns B =>
        cases hst : A.isubArg (.ns B) with
        | error e => simp [hst, Except.toOption]
        | ok C =>
            have : C.history = A.history := isubFold_history B.names A C hst
            simp [hst, Except.toOption, this]
  · cases hst : A.iorArg x with
    | error e => simp [hst, Except.toOption]
    | ok C => simp [hst, Except.toOption, iorArg_ok_history hst]
  · cases hst : A.iandArg x with
    | error e => simp [hst, Except.toOption]
    | ok C =>
        have hh : C.history = A.history := by
          cases x with
          | str s => exact absurd hst (by simp [NameSet.iandArg])
          | coll l =>
              unfold NameSet.iandArg at hst
              simp only [] at hst
              rw [Except.ok.injEq] at hst
              subst hst
              rw [updateAvgNameLen_history]
          | ns B =>
              unfold NameSet.iandArg at hst
              simp only [] at hst
              rw [Except.ok.injEq] at hst
              subst hst
              rw [updateAvgNameLen_history]
        simp [hst, Except.toOption, hh]

/-- C7: after linking the histories of `A` and `B`, a name added through
either one is visible through the other, clearing through either one clears
both, and after `B` unlinks it keeps exactly the history it had at that
moment while names subsequently added through `A` are no longer visible
through `B`. -/
theorem c7_linked_histories {ι : Type} [DecidableEq ι] (s : HistSys ι) (A B : ι)
    (hAB : A ≠ B) (n m : String) :
    ((s.link A [B]).histAdd A n).history B = (s.link A [B]).history B ∪ {n} ∧
    ((s.link A [B]).histAdd B n).history A = (s.link A [B]).history A ∪ {n} ∧
    ((s.link A [B]).histClear A).history B = ∅ ∧
    ((s.link A [B]).histClear B).history A = ∅ ∧
    ((s.link A [B]).unlink B).history B = (s.link A [B]).history B ∧
    (((s.link A [B]).unlink B).histAdd A m).history B =
      ((s.link A [B]).unlink B).history B := by
  have hcA : (s.link A [B]).cellOf A = s.fresh := by
    simp [HistSys.link]
  have hcB : (s.link A [B]).cellOf B = s.fresh := by
    simp [HistSys.link]
  refine ⟨?_, ?_, ?_, ?_, ?_, ?_⟩
  · simp [HistSys.histAdd, HistSys.history, hcA, hcB]
  · simp [HistSys.histAdd, HistSys.history, hcA, hcB]
  · simp [HistSys.histClear, HistSys.history, hcA, hcB]
  · simp [HistSys.histClear, HistSys.history, hcA, hcB]
  · simp [HistSys.unlink, HistSys.history]
  · have hfresh : (s.link A [B]).fresh = s.fresh + 1 := rfl
    have huA : ((s.link A [B]).unlink B).cellOf A = s.fresh := by
      simp [HistSys.unlink, hAB, hcA]
    have huB : ((s.link A [B]).unlink B).cellOf B = s.fresh + 1 := by
      simp [HistSys.unlink, hfresh]
    simp [HistSys.histAdd, HistSys.history, huA, huB]

/-- Witness for C7: two freshly constructed name-sets with empty, unshared
histories. -/
theorem c7_witness :
    ((hs0.link 0 [1]).histAdd 0 "x").history 1 = (hs0.link 0 [1]).history 1 ∪ {"x"} ∧
    ((hs0.link 0 [1]).histAdd 1 "x").history 0 = (hs0.link 0 [1]).history 0 ∪ {"x"} ∧
    ((hs0.link 0 [1]).histClear 0).history 1 = ∅ ∧
    ((hs0.link 0 [1]).histClear 1).history 0 = ∅ ∧
    ((hs0.link 0 [1]).unlink 1).history 1 = (hs0.link 0 [1]).history 1 ∧
    (((hs0.link 0 [1]).unlink 1).histAdd 0 "y").history 1 =
      ((hs0.link 0 [1]).unlink 1).history 1 :=
  c7_linked_histories hs0 0 1 (by decide) "x" "y"

/-- Counterexample for C8 as frozen: `add_to_history` does not reject a
bare string; it wraps it as a one-element collection and adds it. -/
theorem c8_counterexample :
    zArec.addToHistory (.str "abc") = zArec.addToHistory (.coll ["abc"]) ∧
    (zArec.addToHistory (.str "abc")).history = {"abc"} := by
  constructor
  · show ({ zArec with history := zArec.history ∪ {"abc"} } : NameSet) =
        { zArec with history := zArec.history ∪ ["abc"].toFinset }
    have : (zArec.history ∪ {"abc"} : Finset String) = zArec.history ∪ ["abc"].toFinset := by
      simp [zArec]
    rw [this]
  · show (zArec.history ∪ {"abc"} : Finset String) = {"abc"}
    simp [zArec]

/-- C8 (amended): a bare string operand raises a `TypeError` immediately in
all four algebra operators, both the in-place and the copying forms, while
`add_to_history` accepts a bare string and treats it exactly like a
collection containing that one string. -/
theorem c8_bare_string (A : NameSet) (s : String) :
    A.iaddArg (.str s) = .error (.typeError "Cannot add str to NameSet. Use NameSet.append instead.") ∧
    A.isubArg (.str s) = .error (.typeError "Cannot subtract str from NameSet. Use NameSet.remove instead.") ∧
    A.iorArg (.str s) = .error (.typeError "Cannot take union of str and NameSet. Use NameSet.add instead.") ∧
    A.iandArg (.str s) = .error (.typeError "Cannot take intersection of str with NameSet.") ∧
    A.addArg (.str s) = .error (.typeError "Cannot add str to NameSet. Use NameSet.append instead.") ∧
    A.subArg (.str s) = .error (.typeError "Cannot subtract str from NameSet. Use NameSet.remove instead.") ∧
    A.orArg (.str s) = .error (.typeError "Cannot take union of str and NameSet. Use NameSet.add instead.") ∧
    A.andArg (.str s) = .error (.typeError "Cannot take intersection of str with NameSet.") ∧
    A.addToHistory (.str s) = A.addToHistory (.coll [s]) := by
  refine ⟨rfl, rfl, rfl, rfl, rfl, rfl, rfl, rfl, ?_⟩
  show ({ A with history := A.history ∪ {s} } : NameSet) =
      { A with history := A.history ∪ [s].toFinset }
  have : ({s} : Finset String) = [s].toFinset := by simp
  rw [this]

/-- Counterexample for C9 as frozen: adding two empty `NameSet`s divides by
`len(self) + len(other) = 0` at line 163 and raises `ZeroDivisionError`
instead of producing an empty result with mean `0`. -/
theorem c9_counterexample : e0.iaddNS e0 = .error .zeroDivisionError := by rfl

/-- C9 (amended): whenever at least one operand corpus is nonempty (and the
two sets share one length metric), `+=` succeeds and the resulting cached
mean is the size-weighted combination of the two cached means; adding two
empty corpora instead raises a `ZeroDivisionError`. -/
theorem c9_weighted_mean (A B : NameSet) (hm : A.metricId = B.metricId)
    (h : 0 < A.names.length + B.names.length) :
    (A.iaddNS B).map (fun C => C.avgNameLen) =
      .ok ((A.avgNameLen * (A.names.length : Rat) + B.avgNameLen * (B.names.length : Rat)) /
        ((A.names.length : Rat) + (B.names.length : Rat))) := by
  unfold NameSet.iaddNS
  simp only []
  set B1 := if A.order ≠ B.order then B.changeOrderNat A.order else B with hB1
  have h1n : B1.names = B.names := by
    rw [hB1]; split <;> simp [NameSet.changeOrderNat]
  have h1a : B1.avgNameLen = B.avgNameLen := by
    rw [hB1]; split <;> simp [NameSet.changeOrderNat]
  have h1m : B1.metricId = B.metricId := by
    rw [hB1]; split <;> simp [NameSet.changeOrderNat]
  rw [if_neg (show ¬A.metricId ≠ B1.metricId by simp [h1m, hm])]
  rw [if_neg (show ¬(A.names.length + B1.names.length = 0) by rw [h1n]; omega)]
  simp [Except.map, h1n, h1a]

/-- Witness for C9: a three-name corpus plus a one-name corpus. -/
theorem c9_witness :
    (wA.iaddNS wG).map (fun C => C.avgNameLen) =
      .ok ((wA.avgNameLen * (wA.names.length : Rat) + wG.avgNameLen * (wG.names.length : Rat)) /
        ((wA.names.length : Rat) + (wG.names.length : Rat))) :=
  c9_weighted_mean wA wG rfl (by decide)

/-- C10 (amended): a non-integer or negative order raises a `ValueError` at
the constructing or order-changing call; an unrecognized preference mode
raises a `ValueError` at the `make_name` call whenever at least one valid
candidate was found, but when zero candidates were found `make_name`
returns the empty-string sentinel without reaching the preference check. -/
theorem c10_config_errors (names : List String) (q : Rat) (mid : Nat)
    (f : String → Rat) (A : NameSet) (cfg : MakeNameCfg) (gen : Nat → String) :
    (q.den ≠ 1 →
      mkNameSet names q mid f = .error (.valueError "Cannot create NameSet with non-integer order.")) ∧
    (q.den = 1 → q < 0 →
      mkNameSet names q mid f = .error (.valueError "Cannot create NameSet with negative order.")) ∧
    (q.den ≠ 1 →
      A.changeOrder q = .error (.valueError "Cannot change to a non-integer order.")) ∧
    (q.den = 1 → q < 0 →
      A.changeOrder q = .error (.valueError "Cannot change to a negative order.")) ∧
    (cfg.prefCandidate ≠ 0 → cfg.prefCandidate ≠ 1 → cfg.prefCandidate ≠ 2 →
      ((collectCandidates gen (A.nameValid cfg) cfg.maxAttempts cfg.nCandidates 0).1 = [] →
        A.makeName cfg gen = .ok ("", A)) ∧
      ((collectCandidates gen (A.nameValid cfg) cfg.maxAttempts cfg.nCandidates 0).1 ≠ [] →
        A.makeName cfg gen =
          .error (.valueError "make_name got an unexpected value for pref_candidate"))) := by
  refine ⟨?_, ?_, ?_, ?_, ?_⟩
  · intro hq
    unfold mkNameSet
    rw [if_pos hq]
  · intro hq hneg
    unfold mkNameSet
    rw [if_neg (by simp [hq]), if_pos hneg]
  · intro hq
    unfold NameSet.changeOrder
    rw [if_pos hq]
  · intro hq hneg
    unfold NameSet.changeOrder
    rw [if_neg (by simp [hq]), if_pos hneg]
  · intro h0 h1 h2
    constructor
    · intro hc
      unfold NameSet.makeName
      simp only []
      rw [hc]
      simp
    · intro hc
      unfold NameSet.makeName
      simp only []
      rw [show ((collectCandidates gen (A.nameValid cfg) cfg.maxAttempts cfg.nCandidates 0).1).isEmpty = false
        from by simpa [List.isEmpty_iff] using hc]
      simp only [Bool.false_eq_true, if_false]
      unfold NameSet.sortKeyOf
      rw [if_neg h2, if_neg (by simp [h0, h1])]

/-- Counterexample for C10 as frozen: with an unrecognized preference mode
and zero valid candidates (here, a validator that rejects everything)
`make_name` returns the sentinel `""` without raising any error. -/
theorem c10_counterexample : zA.makeName cfgBadPref (fun _ => "ab") = .ok ("", zA) := by rfl

/-- Witness for C10: each configuration error observed at a concrete call,
plus the sentinel return with an unrecognized preference and no candidates,
plus the `ValueError` with an unrecognized preference and one candidate. -/
theorem c10_witness :
    mkNameSet [] halfQ 1 strLen = .error (.valueError "Cannot create NameSet with non-integer order.") ∧
    mkNameSet [] (-1) 1 strLen = .error (.valueError "Cannot create NameSet with negative order.") ∧
    zA.changeOrder halfQ = .error (.valueError "Cannot change to a non-integer order.") ∧
    zA.changeOrder (-1) = .error (.valueError "Cannot change to a negative order.") ∧
    zA.makeName cfgBadPref (fun _ => "ab") = .ok ("", zA) ∧
    zA.makeName cfgBadPref2 (fun _ => "ab") =
      .error (.valueError "make_name got an unexpected value for pref_candidate") := by
  refine ⟨(c10_config_errors [] halfQ 1 strLen zA cfgBadPref (fun _ => "ab")).1 (by decide),
    (c10_config_errors [] (-1) 1 strLen zA cfgBadPref (fun _ => "ab")).2.1 (by decide) (by decide),
    (c10_config_errors [] halfQ 1 strLen zA cfgBadPref (fun _ => "ab")).2.2.1 (by decide),
    (c10_config_errors [] (-1) 1 strLen zA cfgBadPref (fun _ => "ab")).2.2.2.1 (by decide) (by decide),
    ((c10_config_errors [] (-1) 1 strLen zA cfgBadPref (fun _ => "ab")).2.2.2.2
      (by decide) (by decide) (by decide)).1 (by decide),
    ((c10_config_errors [] (-1) 1 strLen zA cfgBadPref2 (fun _ => "ab")).2.2.2.2
      (by decide) (by decide) (by decide)).2 (by decide)⟩

/-- Counterexample for C4 as frozen: a name-set with a nonempty corpus but
cached mean `0` (constant-zero metric), one valid candidate found, and
preference `AVG`: `make_name` raises `ZeroDivisionError` instead of falling
back to the metric value and returning a candidate. -/
theorem c4_counterexample : zA.makeName cfgAvg (fun _ => "ab") = .error .zeroDivisionError := by
  rw [show zA = zArec from by
    unfold zA mkNameSetNat
    simp [NameSet.updateAvgNameLen, zArec, NameSet.mk.injEq]]
  rfl

/-- C4 (amended): whenever the cached mean is `0`, the preference is `AVG`
and at least one valid candidate is found, `make_name` raises
`ZeroDivisionError` - the division in the sort key (line 536) is
unguarded, so there is no fallback. -/
theorem c4_avg_zero_division (A : NameSet) (cfg : MakeNameCfg) (gen : Nat → String)
    (hpref : cfg.prefCandidate = 2) (havg : A.avgNameLen = 0)
    (hc : (collectCandidates gen (A.nameValid cfg) cfg.maxAttempts cfg.nCandidates 0).1 ≠ []) :
    A.makeName cfg gen = .error .zeroDivisionError := by
  unfold NameSet.makeName
  simp only []
  rw [show ((collectCandidates gen (A.nameValid cfg) cfg.maxAttempts cfg.nCandidates 0).1).isEmpty = false
    from by simpa [List.isEmpty_iff] using hc]
  simp only [Bool.false_eq_true, if_false]
  unfold NameSet.sortKeyOf
  rw [if_pos hpref, if_pos havg]

/-- Witness for C4 (amended): a distinct concrete zero-mean corpus. -/
theorem c4_witness : zB.makeName cfgAvg (fun _ => "xy") = .error .zeroDivisionError :=
  c4_avg_zero_division zB cfgAvg (fun _ => "xy") rfl
    (by simp [zB, mkNameSetNat, NameSet.updateAvgNameLen]) (by decide)

/-- The corpus `mA` with its cached mean evaluated: both names have metric
value `4`, so the mean is `4`. -/
theorem mA_eq : mA = mArec := by
  unfold mA mkNameSetNat
  have h1 : ("ab" : String).length = 2 := rfl
  have h2 : ("cd" : String).length = 2 := rfl
  simp [NameSet.updateAvgNameLen, mArec, NameSet.mk.injEq, h1, h2]
  norm_num

/-- C1 evaluated at the failing input (the claim is right, the code is
wrong): `NameSet(['ab', 'cd'], name_len_func = twice the character count)`
has cached mean `4`; after `remove('ab')` the incremental update of lines
353-356 subtracts the built-in `len('ab') = 2` instead of the metric value
`4`, leaving a cached mean of `6` while the true metric mean of the
remaining corpus `['cd']` is `4`. -/
theorem c1_remove_metric_bug :
    (mA.remove "ab").map (fun A => A.avgNameLen) = .ok 6 ∧
    (mA.remove "ab").map
      (fun A => (A.names.map A.metric).sum / (A.names.length : Rat)) = .ok 4 ∧
    (6 : Rat) ≠ 4 := by
  rw [mA_eq]
  have h1 : ("ab" : String).length = 2 := rfl
  have h2 : ("cd" : String).length = 2 := rfl
  refine ⟨?_, ?_, by norm_num⟩
  · simp [NameSet.remove, mArec, Except.map, h1, h2]
    norm_num
  · simp [NameSet.remove, mArec, Except.map, h1, h2]
    norm_num

/-- C3: the selector of `make_name` refines its specification: the
candidates are exactly those collected slot by slot, each slot drawing at
most `max_attempts` raw names and keeping the first valid one (so at most
`n_candidates * max_attempts` draws happen in total); with no candidate the
empty-string sentinel is returned; otherwise the result is the
preference-best candidate with ties broken by input order, and it is added
to the history exactly when the caller opted in. -/
theorem c3_candidate_selection (A : NameSet) (cfg : MakeNameCfg) (gen : Nat → String)
    (hpref : cfg.prefCandidate = 0 ∨ cfg.prefCandidate = 1 ∨ cfg.prefCandidate = 2)
    (havg : cfg.prefCandidate = 2 → A.avgNameLen ≠ 0) :
    (collectCandidates gen (A.nameValid cfg) cfg.maxAttempts cfg.nCandidates 0).1 =
      specCandidates gen (A.nameValid cfg) cfg.maxAttempts cfg.nCandidates 0 ∧
    (collectCandidates gen (A.nameValid cfg) cfg.maxAttempts cfg.nCandidates 0).2 ≤
      cfg.nCandidates * cfg.maxAttempts ∧
    (specCandidates gen (A.nameValid cfg) cfg.maxAttempts cfg.nCandidates 0 = [] →
      A.makeName cfg gen = .ok ("", A)) ∧
    (specCandidates gen (A.nameValid cfg) cfg.maxAttempts cfg.nCandidates 0 ≠ [] →
      A.makeName cfg gen = .ok
        ((prefBest A cfg.prefCandidate
            (specCandidates gen (A.nameValid cfg) cfg.maxAttempts cfg.nCandidates 0)).getD "",
         if cfg.addHistory then
           A.addToHistory (.str ((prefBest A cfg.prefCandidate
             (specCandidates gen (A.nameValid cfg) cfg.maxAttempts cfg.nCandidates 0)).getD ""))
         else A)) := by
  have hcoll := collect_eq_spec gen (A.nameValid cfg) cfg.maxAttempts cfg.nCandidates 0
  refine ⟨hcoll,
    by simpa using collect_cursor_le gen (A.nameValid cfg) cfg.maxAttempts cfg.nCandidates 0,
    ?_, ?_⟩
  · intro hempty
    unfold NameSet.makeName
    simp only []
    rw [hcoll, hempty]
    simp
  · intro hne
    unfold NameSet.makeName
    simp only []
    rw [hcoll]
    rw [show (specCandidates gen (A.nameValid cfg) cfg.maxAttempts cfg.nCandidates 0).isEmpty
        = false from by simpa [List.isEmpty_iff] using hne]
    simp only [Bool.false_eq_true, if_false]
    rcases hpref with h0 | h1 | h2
    · have hk : A.sortKeyOf cfg.prefCandidate = .ok A.metric := by
        unfold NameSet.sortKeyOf
        rw [if_neg (by omega), if_pos (by omega)]
      rw [hk]
      simp only []
      rw [if_neg (by omega)]
      rw [List.headD_eq_head?_getD, stableSort_head_min]
      simp [prefBest, h0]
    · have hk : A.sortKeyOf cfg.prefCandidate = .ok A.metric := by
        unfold NameSet.sortKeyOf
        rw [if_neg (by omega), if_pos (by omega)]
      rw [hk]
      simp only []
      rw [if_pos h1]
      rw [List.headD_eq_head?_getD, stableSort_head_max]
      simp [prefBest, h1]
    · have hk : A.sortKeyOf cfg.prefCandidate =
          .ok (fun name => |A.metric name - A.avgNameLen| / A.avgNameLen) := by
        unfold NameSet.sortKeyOf
        rw [if_pos h2, if_neg (havg h2)]
      rw [hk]
      simp only []
      rw [if_neg (by omega)]
      rw [List.headD_eq_head?_getD, stableSort_head_min]
      simp [prefBest, h2]

/-- Witness for C3: a concrete corpus, `MIN` preference, two slots of two
attempts each, and a concrete raw-name oracle. -/
theorem c3_witness :
    (collectCandidates genW (wA.nameValid cfgMin) cfgMin.maxAttempts cfgMin.nCandidates 0).1 =
      specCandidates genW (wA.nameValid cfgMin) cfgMin.maxAttempts cfgMin.nCandidates 0 ∧
    (collectCandidates genW (wA.nameValid cfgMin) cfgMin.maxAttempts cfgMin.nCandidates 0).2 ≤
      cfgMin.nCandidates * cfgMin.maxAttempts ∧
    (specCandidates genW (wA.nameValid cfgMin) cfgMin.maxAttempts cfgMin.nCandidates 0 = [] →
      wA.makeName cfgMin genW = .ok ("", wA)) ∧
    (specCandidates genW (wA.nameValid cfgMin) cfgMin.maxAttempts cfgMin.nCandidates 0 ≠ [] →
      wA.makeName cfgMin genW = .ok
        ((prefBest wA cfgMin.prefCandidate
            (specCandidates genW (wA.nameValid cfgMin) cfgMin.maxAttempts cfgMin.nCandidates 0)).getD "",
         if cfgMin.addHistory then
           wA.addToHistory (.str ((prefBest wA cfgMin.prefCandidate
             (specCandidates genW (wA.nameValid cfgMin) cfgMin.maxAttempts cfgMin.nCandidates 0)).getD ""))
         else wA)) :=
  c3_candidate_selection wA cfgMin genW (Or.inl rfl) (fun h => absurd h (by decide))

end Namemaker
